import Mathlib

/-!
# ibm-block-csi-operator: the iscsi command, the connectivity probe, the label helpers

A shallow embedding of

* `cmd/iscsi/main.go` (`login`, `logout`, `watch`),
* `pkg/util/utils.go` (`TestConnectivity`),
* `pkg/internal/ibmblockcsi/ibmblockcsi.go` (`GetLabels`, the selector and pod
  labels, `GetSidecarByName`, `GetSidecarImageByName`).

Go strings are Lean `String`s.  Calls that leave the process (the iscsi
package, the logger, `grpc.Dial`, `time.Sleep`) are recorded as events of a
trace; what an external call answers is given by an environment that sees the
whole trace so far.  A call of `os.Exit` ends the run with its status.
-/

set_option autoImplicit false

namespace Cmd

/-! ## `strings.Split(s, ",")` -/

/-- The pieces of `s` between the occurrences of `sep`, as `strings.Split`
cuts them for a one-character separator: the text before the first `sep`, then
the pieces of what follows it; a text without `sep` is its only piece (so the
empty text has the single piece `""`). -/
def splitChars (sep : Char) : List Char → List (List Char)
  | [] => [[]]
  | c :: cs =>
    if c = sep then [] :: splitChars sep cs
    else
      match splitChars sep cs with
      | [] => [[c]]
      | w :: ws => (c :: w) :: ws

/-- The call `strings.Split(s, ",")`.  Go cuts the bytes of `s` at the byte
`,`; no byte of a multi-byte UTF-8 character is that byte, so on text the cut
by characters is the same. -/
def Split (s : String) : List String :=
  (splitChars ',' s.data).map String.mk

/-! ## The process: events and runs -/

/-- What `cmd/iscsi` does that is visible outside the function. -/
inductive Event
  /-- The call `log.Info(msg)`. -/
  | logInfo (msg : String)
  /-- The call `log.Error(err, msg)`. -/
  | logError (err : String) (msg : String)
  /-- The call `iscsi.DiscoverAndLogin(portal)`. -/
  | discoverAndLogin (portal : String)
  /-- The call `iscsi.DiscoverAndLogout(portal)`. -/
  | discoverAndLogout (portal : String)
  /-- The call `time.Sleep(d)`, `d` in nanoseconds. -/
  | sleep (d : Int)
  deriving DecidableEq, Repr

/-- The answer of an iscsi call: `none` is a nil error, `some e` the error `e`.
The answer may depend on everything the process did before the call. -/
abbrev IscsiEnv := List Event → String → Option String

/-- A finished run of a command function: its trace, and `some c` when it
ended in `os.Exit(c)`, `none` when it returned to its caller. -/
structure Run where
  /-- The events, oldest first. -/
  trace : List Event
  /-- The status `os.Exit` was called with, if it was called. -/
  exit : Option Int
  deriving DecidableEq, Repr

/-- The body of `for _, portal := range ... { err := iscsi.DiscoverAndLogin(portal); ... }`
in `login`, run over the remaining entries from the trace `tr`. -/
def loginLoop (DiscoverAndLogin : IscsiEnv) : List String → List Event → List Event
  | [], tr => tr
  | portal :: rest, tr =>
    let err := DiscoverAndLogin tr portal
    let tr := tr ++ [Event.discoverAndLogin portal]
    match err with
    | some e => loginLoop DiscoverAndLogin rest (tr ++ [Event.logError e ("Failed to login portal " ++ portal)])
    | none => loginLoop DiscoverAndLogin rest tr

/-- The function `login(portals string)`. -/
def login (DiscoverAndLogin : IscsiEnv) (portals : String) : Run :=
  if portals = "" then
    { trace := [Event.logInfo "--portals is required!"], exit := some 1 }
  else
    let tr := [Event.logInfo ("Starting to login portals: " ++ portals)]
    let tr := loginLoop DiscoverAndLogin (Split portals) tr
    { trace := tr ++ [Event.logInfo "Finished to login portals"], exit := none }

/-- The body of the `for` loop of `logout`, run over the remaining entries. -/
def logoutLoop (DiscoverAndLogout : IscsiEnv) : List String → List Event → List Event
  | [], tr => tr
  | portal :: rest, tr =>
    let err := DiscoverAndLogout tr portal
    let tr := tr ++ [Event.discoverAndLogout portal]
    match err with
    | some e => logoutLoop DiscoverAndLogout rest (tr ++ [Event.logError e ("Failed to logout portal " ++ portal)])
    | none => logoutLoop DiscoverAndLogout rest tr

/-- The function `logout(portals string)`. -/
def logout (DiscoverAndLogout : IscsiEnv) (portals : String) : Run :=
  if portals = "" then
    { trace := [Event.logInfo "--portals is required!"], exit := some 1 }
  else
    let tr := [Event.logInfo ("Starting to logout portals: " ++ portals)]
    let tr := logoutLoop DiscoverAndLogout (Split portals) tr
    { trace := tr ++ [Event.logInfo "Finished to logout portals"], exit := none }

/-- The portals `iscsi.DiscoverAndLogin` was called with, in call order. -/
def loginCalls (tr : List Event) : List String :=
  tr.filterMap fun e =>
    match e with
    | Event.discoverAndLogin p => some p
    | _ => none

/-- The portals `iscsi.DiscoverAndLogout` was called with, in call order. -/
def logoutCalls (tr : List Event) : List String :=
  tr.filterMap fun e =>
    match e with
    | Event.discoverAndLogout p => some p
    | _ => none

/-! ## `watch` -/

/-- The constant `time.Nanosecond`; a `time.Duration` counts nanoseconds. -/
def Nanosecond : Int := 1
/-- The constant `time.Microsecond`. -/
def Microsecond : Int := 1000 * Nanosecond
/-- The constant `time.Millisecond`. -/
def Millisecond : Int := 1000 * Microsecond
/-- The constant `time.Second`. -/
def Second : Int := 1000 * Millisecond
/-- The constant `time.Minute`. -/
def Minute : Int := 60 * Second
/-- The constant `time.Hour`. -/
def Hour : Int := 60 * Minute

/-- Where control is in `watch`: at the head of `for { ... }`, or past the end
of the function body. -/
inductive WatchPc
  | loop
  | returned
  deriving DecidableEq, Repr

/-- A state of `watch`: the control point and the events so far. -/
structure WatchState where
  /-- The control point. -/
  pc : WatchPc
  /-- The events, oldest first. -/
  trace : List Event
  deriving DecidableEq, Repr

/-- The state in which `watch()` is entered. -/
def watchInit : WatchState := { pc := WatchPc.loop, trace := [] }

/-- One step of `watch`: at the head of the loop, the body
`time.Sleep(time.Hour * 24)` runs and control is back at the head (the `for`
has no condition and the body no `break` or `return`); a returned function
has no step. -/
def watchStep (s : WatchState) : Option WatchState :=
  match s.pc with
  | WatchPc.loop => some { pc := WatchPc.loop, trace := s.trace ++ [Event.sleep (Hour * 24)] }
  | WatchPc.returned => none

/-- The step relation of `watch`. -/
def WatchStep (s t : WatchState) : Prop := watchStep s = some t

/-- The state after `n` steps from `s`, `none` when `watch` has no `n` steps
from `s`. -/
def watchRun : Nat → WatchState → Option WatchState
  | 0, s => some s
  | n + 1, s =>
    match watchStep s with
    | some t => watchRun n t
    | none => none

/-- An event that is a call into the iscsi package (discovery with login or
logout). -/
def Event.isIscsi : Event → Bool
  | Event.discoverAndLogin _ => true
  | Event.discoverAndLogout _ => true
  | _ => false

/-! ## Joining, the inverse of splitting -/

/-- The texts `es` written one after the other with `sep` between them. -/
def joinChars (sep : Char) : List (List Char) → List Char
  | [] => []
  | [e] => e
  | e :: e' :: es => e ++ sep :: joinChars sep (e' :: es)

/-! ## What the specification says of the portal list -/

/-- A list without its repeated entries, the first occurrence of each kept,
in the order of first occurrence ("duplicates removed (stable, first occurrence
wins)"). -/
def dedupKeepFirst : List String → List String
  | [] => []
  | x :: xs => x :: (dedupKeepFirst xs).filter (fun y => decide (y ≠ x))

end Cmd

namespace Util

/-- What `TestConnectivity` does that is visible outside the function. -/
inductive Event
  /-- The call `grpc.Dial(address, grpc.WithInsecure())`. -/
  | dial (address : String)
  /-- The call `conn.Close()` on the connection dialled to `address`. -/
  | close (address : String)
  deriving DecidableEq, Repr

/-- The answer of `grpc.Dial`: `true` when `err == nil`.  The answer may depend
on everything the function did before the call. -/
abbrev DialEnv := List Event → String → Bool

/-- The address handed to `grpc.Dial` for the candidate `addr`: `addr` itself
when `port` is empty, `fmt.Sprintf("%s:%s", addr, port)` otherwise. -/
def dialAddress (addr port : String) : String :=
  if port = "" then addr else addr ++ ":" ++ port

/-- The outcome of `TestConnectivity`: the events and the returned string. -/
structure Probe where
  /-- The events, oldest first. -/
  trace : List Event
  /-- The returned address, `""` for none. -/
  result : String
  deriving DecidableEq, Repr

/-- The loop `for _, addr := range addrs { ... }` of `TestConnectivity` over
the remaining candidates, from the trace `tr`; falling out of the loop is
`return ""`. -/
def TestConnectivityLoop (dial : DialEnv) (port : String) : List String → List Event → Probe
  | [], tr => { trace := tr, result := "" }
  | addr :: rest, tr =>
    let address := dialAddress addr port
    let ok := dial tr address
    let tr := tr ++ [Event.dial address]
    if ok then { trace := tr ++ [Event.close address], result := addr }
    else TestConnectivityLoop dial port rest tr

/-- The function `TestConnectivity(addrs []string, port string) string`. -/
def TestConnectivity (dial : DialEnv) (addrs : List String) (port : String) : Probe :=
  TestConnectivityLoop dial port addrs []

/-- The dial events of the candidates `addrs`, in list order. -/
def dialsOf (addrs : List String) (port : String) : List Event :=
  addrs.map fun a => Event.dial (dialAddress a port)

end Util

namespace Ibmblockcsi

/-! ## `labels.Set`, a `map[string]string` -/

/-- A Go `map[string]string` as the list of its entries in some iteration
order; a key is looked up at its first entry. -/
abbrev Set := List (String × String)

/-- The read `ls[key]` with its presence flag: the value of the first entry
with that key. -/
def Set.get (ls : Set) (key : String) : Option String :=
  match ls with
  | [] => none
  | (k, v) :: rest => if k = key then some v else Set.get rest key

/-- The method `labels.Set.Has`: `_, exists := ls[label]; return exists`. -/
def Set.Has (ls : Set) (label : String) : Bool :=
  (Set.get ls label).isSome

/-- The assignment `ls[key] = value`: the entry of `key` is overwritten where
there is one, added otherwise. -/
def Set.put (ls : Set) (key value : String) : Set :=
  match ls with
  | [] => [(key, value)]
  | (k, v) :: rest => if k = key then (k, value) :: rest else (k, v) :: Set.put rest key value

/-- The function `labels.Merge(labels1, labels2)`: a new set that receives
every entry of `labels1`, then every entry of `labels2`. -/
def Merge (labels1 labels2 : Set) : Set :=
  let mergedMap : Set := labels1.foldl (fun m kv => Set.put m kv.1 kv.2) []
  labels2.foldl (fun m kv => Set.put m kv.1 kv.2) mergedMap

/-! ## The custom resource and the constants of `config` and `version` -/

/-- A `csiv1.CSISidecar`, the fields the wrapper reads. -/
structure CSISidecar where
  Name : String
  Repository : String
  Tag : String
  ImagePullPolicy : String
  deriving DecidableEq, Repr

/-- The wrapped `csiv1.IBMBlockCSI`, the fields the wrapper reads:
`ObjectMeta.Name`, `ObjectMeta.Labels` (`none` is the nil map) and
`Spec.Sidecars`. -/
structure IBMBlockCSI where
  Name : String
  Labels : Option Set
  Sidecars : List CSISidecar
  deriving DecidableEq, Repr

/-- The constants the wrapper takes from the packages `config` and `version`:
`config.ProductName`, `config.Name`, `version.Version`, and the strings
`config.CSIController.String()` and `config.CSINode.String()`. -/
structure Config where
  ProductName : String
  Name : String
  Version : String
  CSIController : String
  CSINode : String
  deriving DecidableEq, Repr

/-- The method `GetLabels`. -/
def GetLabels (cfg : Config) (c : IBMBlockCSI) : Set :=
  let labels : Set := [
    ("app.kubernetes.io/name", cfg.ProductName),
    ("app.kubernetes.io/instance", c.Name),
    ("app.kubernetes.io/version", cfg.Version),
    ("app.kubernetes.io/managed-by", cfg.Name),
    ("csi", "ibm"),
    ("product", cfg.ProductName)]
  match c.Labels with
  | some cl =>
    cl.foldl (fun labels kv => if !Set.Has labels kv.1 then Set.put labels kv.1 kv.2 else labels) labels
  | none => labels

/-- The method `GetSelectorLabels`. -/
def GetSelectorLabels (component : String) : Set :=
  [("app.kubernetes.io/component", component)]

/-- The method `GetCSIControllerSelectorLabels`. -/
def GetCSIControllerSelectorLabels (cfg : Config) : Set :=
  GetSelectorLabels cfg.CSIController

/-- The method `GetCSINodeSelectorLabels`. -/
def GetCSINodeSelectorLabels (cfg : Config) : Set :=
  GetSelectorLabels cfg.CSINode

/-- The method `GetCSIControllerPodLabels`. -/
def GetCSIControllerPodLabels (cfg : Config) (c : IBMBlockCSI) : Set :=
  Merge (GetLabels cfg c) (GetCSIControllerSelectorLabels cfg)

/-- The method `GetCSINodePodLabels`. -/
def GetCSINodePodLabels (cfg : Config) (c : IBMBlockCSI) : Set :=
  Merge (GetLabels cfg c) (GetCSINodeSelectorLabels cfg)

/-- The loop of `GetSidecarByName` over the remaining sidecars; `none` is the
nil pointer. -/
def findSidecar (name : String) : List CSISidecar → Option CSISidecar
  | [] => none
  | sidecar :: rest => if sidecar.Name = name then some sidecar else findSidecar name rest

/-- The method `GetSidecarByName`. -/
def GetSidecarByName (c : IBMBlockCSI) (name : String) : Option CSISidecar :=
  findSidecar name c.Sidecars

/-- The method `GetSidecarImageByName`. -/
def GetSidecarImageByName (c : IBMBlockCSI) (name : String) : String :=
  match GetSidecarByName c name with
  | some sidecar => sidecar.Repository ++ ":" ++ sidecar.Tag
  | none => ""

/-- The keys of the map literal of `GetLabels`. -/
def operatorKeys : List String :=
  ["app.kubernetes.io/name", "app.kubernetes.io/instance", "app.kubernetes.io/version",
   "app.kubernetes.io/managed-by", "csi", "product"]

/-- The entries of the resource's own labels, none for the nil map. -/
def ownLabels (c : IBMBlockCSI) : Set :=
  match c.Labels with
  | some cl => cl
  | none => []

/-- The keys of a set, in entry order. -/
def Set.keys (ls : Set) : List String := ls.map Prod.fst

/-- The body of the loop of `GetLabels`. -/
def addOwn (labels : Set) (kv : String × String) : Set :=
  if !Set.Has labels kv.1 then Set.put labels kv.1 kv.2 else labels

/-- The literal of `GetLabels`. -/
def operatorLabels (cfg : Config) (c : IBMBlockCSI) : Set :=
  [("app.kubernetes.io/name", cfg.ProductName),
   ("app.kubernetes.io/instance", c.Name),
   ("app.kubernetes.io/version", cfg.Version),
   ("app.kubernetes.io/managed-by", cfg.Name),
   ("csi", "ibm"),
   ("product", cfg.ProductName)]

/-- A pod with the labels `pod` is selected by the selector `sel`: every
entry of `sel` is an entry of `pod`. -/
def Matches (sel pod : Set) : Prop :=
  ∀ k v, Set.get sel k = some v → Set.get pod k = some v

end Ibmblockcsi

/-! # Theorems -/

namespace Cmd

/-! ## `strings.Split` -/

theorem splitChars_ne_nil (sep : Char) (cs : List Char) : splitChars sep cs ≠ [] := by
  induction cs with
  | nil => simp [splitChars]
  | cons c cs ih =>
    unfold splitChars
    split
    · simp
    · split <;> simp

theorem length_splitChars (sep : Char) (cs : List Char) :
    (splitChars sep cs).length = cs.count sep + 1 := by
  induction cs with
  | nil => simp [splitChars]
  | cons c cs ih =>
    unfold splitChars
    by_cases h : c = sep
    · subst h
      simp [ih]
    · have hne : (c == sep) = false := by simpa using h
      rw [if_neg h, List.count_cons, hne]
      cases hs : splitChars sep cs with
      | nil => exact absurd hs (splitChars_ne_nil sep cs)
      | cons w ws =>
        rw [hs] at ih
        simpa using ih

/-- A text without the separator is its own single piece. -/
theorem splitChars_of_not_mem (sep : Char) (e : List Char) (h : sep ∉ e) :
    splitChars sep e = [e] := by
  induction e with
  | nil => simp [splitChars]
  | cons c e ih =>
    have hc : c ≠ sep := fun hc => h (by simp [hc])
    have he : sep ∉ e := fun he => h (by simp [he])
    unfold splitChars
    rw [if_neg hc, ih he]

/-- A separator-free text followed by the separator is cut off as the first
piece. -/
theorem splitChars_append_sep (sep : Char) (e t : List Char) (h : sep ∉ e) :
    splitChars sep (e ++ sep :: t) = e :: splitChars sep t := by
  induction e with
  | nil => simp [splitChars]
  | cons c e ih =>
    have hc : c ≠ sep := fun hc => h (by simp [hc])
    have he : sep ∉ e := fun he => h (by simp [he])
    have step : splitChars sep (c :: (e ++ sep :: t))
        = match splitChars sep (e ++ sep :: t) with
          | [] => [[c]]
          | w :: ws => (c :: w) :: ws := by
      simp [splitChars, hc]
    rw [List.cons_append, step, ih he]

/-- Splitting undoes joining: separator-free texts joined by the separator
are cut into exactly those texts. -/
theorem splitChars_joinChars (sep : Char) (es : List (List Char)) (hne : es ≠ [])
    (h : ∀ e ∈ es, sep ∉ e) : splitChars sep (joinChars sep es) = es := by
  induction es with
  | nil => exact absurd rfl hne
  | cons e es ih =>
    cases es with
    | nil => simpa [joinChars] using splitChars_of_not_mem sep e (h e (by simp))
    | cons e' es =>
      have he : sep ∉ e := h e (by simp)
      have ht : ∀ x ∈ e' :: es, sep ∉ x := fun x hx => h x (by simp [hx])
      simp only [joinChars]
      rw [splitChars_append_sep sep e _ he, ih (by simp) ht]

theorem intercalate_go_data (s : String) (as : List String) (acc : String) :
    (String.intercalate.go acc s as).data
      = acc.data ++ (as.map fun a => s.data ++ a.data).flatten := by
  induction as generalizing acc with
  | nil => simp [String.intercalate.go]
  | cons a as ih => simp [String.intercalate.go, ih, String.data_append]

theorem joinChars_cons (sep : Char) (e : List Char) (es : List (List Char)) :
    joinChars sep (e :: es) = e ++ (es.map fun a => sep :: a).flatten := by
  induction es generalizing e with
  | nil => simp [joinChars]
  | cons e' es ih => simp [joinChars, ih]

theorem intercalate_data (es : List String) :
    (",".intercalate es).data = joinChars ',' (es.map String.data) := by
  cases es with
  | nil => simp [String.intercalate, joinChars]
  | cons e es =>
    simp only [String.intercalate, intercalate_go_data, List.map_cons, joinChars_cons]
    congr 1
    simp [List.map_map, Function.comp_def]

/-- The call `strings.Split` undoes `strings.Join`: comma-free entries
joined by commas are split into exactly those entries. -/
theorem Split_intercalate (es : List String) (hne : es ≠ [])
    (h : ∀ e ∈ es, ',' ∉ e.data) : Split (",".intercalate es) = es := by
  unfold Split
  rw [intercalate_data, splitChars_joinChars]
  · simp [List.map_map, Function.comp_def]
  · simpa using hne
  · intro e he
    obtain ⟨x, hx, rfl⟩ := List.mem_map.1 he
    exact h x hx

theorem Split_ne_nil (s : String) : Split s ≠ [] := by
  simpa [Split] using splitChars_ne_nil ',' s.data

theorem length_Split (s : String) : (Split s).length = s.data.count ',' + 1 := by
  simp [Split, length_splitChars]

/-! ## The loops of `login` and `logout` -/

theorem loginCalls_loginLoop (env : IscsiEnv) (ps : List String) (tr : List Event) :
    loginCalls (loginLoop env ps tr) = loginCalls tr ++ ps := by
  induction ps generalizing tr with
  | nil => simp [loginLoop]
  | cons p ps ih =>
    simp only [loginLoop]
    cases env tr p <;> simp only [] <;> rw [ih] <;> simp [loginCalls, List.filterMap_append]

theorem logoutCalls_logoutLoop (env : IscsiEnv) (ps : List String) (tr : List Event) :
    logoutCalls (logoutLoop env ps tr) = logoutCalls tr ++ ps := by
  induction ps generalizing tr with
  | nil => simp [logoutLoop]
  | cons p ps ih =>
    simp only [logoutLoop]
    cases env tr p <;> simp only [] <;> rw [ih] <;> simp [logoutCalls, List.filterMap_append]

theorem logoutCalls_loginLoop (env : IscsiEnv) (ps : List String) (tr : List Event) :
    logoutCalls (loginLoop env ps tr) = logoutCalls tr := by
  induction ps generalizing tr with
  | nil => simp [loginLoop]
  | cons p ps ih =>
    simp only [loginLoop]
    cases env tr p <;> simp only [] <;> rw [ih] <;> simp [logoutCalls, List.filterMap_append]

theorem loginCalls_logoutLoop (env : IscsiEnv) (ps : List String) (tr : List Event) :
    loginCalls (logoutLoop env ps tr) = loginCalls tr := by
  induction ps generalizing tr with
  | nil => simp [logoutLoop]
  | cons p ps ih =>
    simp only [logoutLoop]
    cases env tr p <;> simp only [] <;> rw [ih] <;> simp [loginCalls, List.filterMap_append]

theorem login_exit_of_ne (env : IscsiEnv) (portals : String) (h : portals ≠ "") :
    (login env portals).exit = none := by
  simp [login, h]

theorem logout_exit_of_ne (env : IscsiEnv) (portals : String) (h : portals ≠ "") :
    (logout env portals).exit = none := by
  simp [logout, h]

theorem loginCalls_login_of_ne (env : IscsiEnv) (portals : String) (h : portals ≠ "") :
    loginCalls (login env portals).trace = Split portals := by
  simp only [login, if_neg h]
  simp [loginCalls, List.filterMap_append]
  simpa [loginCalls] using loginCalls_loginLoop env (Split portals)
    [Event.logInfo ("Starting to login portals: " ++ portals)]

theorem logoutCalls_logout_of_ne (env : IscsiEnv) (portals : String) (h : portals ≠ "") :
    logoutCalls (logout env portals).trace = Split portals := by
  simp only [logout, if_neg h]
  simp [logoutCalls, List.filterMap_append]
  simpa [logoutCalls] using logoutCalls_logoutLoop env (Split portals)
    [Event.logInfo ("Starting to logout portals: " ++ portals)]

/-! ## Lists without repetition -/

theorem dedupKeepFirst_sublist (l : List String) : (dedupKeepFirst l).Sublist l := by
  induction l with
  | nil => simp [dedupKeepFirst]
  | cons x xs ih =>
    simp only [dedupKeepFirst]
    exact List.Sublist.cons₂ x ((List.filter_sublist _).trans ih)

theorem dedupKeepFirst_nodup (l : List String) : (dedupKeepFirst l).Nodup := by
  induction l with
  | nil => simp [dedupKeepFirst]
  | cons x xs ih =>
    simp only [dedupKeepFirst, List.nodup_cons]
    exact ⟨by simp [List.mem_filter], ih.filter _⟩

theorem dedupKeepFirst_eq_self_iff (l : List String) : dedupKeepFirst l = l ↔ l.Nodup := by
  constructor
  · intro h
    rw [← h]
    exact dedupKeepFirst_nodup l
  · intro h
    induction l with
    | nil => simp [dedupKeepFirst]
    | cons x xs ih =>
      rw [List.nodup_cons] at h
      simp only [dedupKeepFirst, ih h.2]
      congr 1
      rw [List.filter_eq_self]
      intro y hy
      have : y ≠ x := fun hyx => h.1 (hyx ▸ hy)
      simpa using this

theorem length_dedupKeepFirst_eq_iff (l : List String) :
    l.length = (dedupKeepFirst l).length ↔ l.Nodup := by
  constructor
  · intro h
    exact (dedupKeepFirst_eq_self_iff l).1
      ((dedupKeepFirst_sublist l).eq_of_length h.symm)
  · intro h
    rw [(dedupKeepFirst_eq_self_iff l).2 h]

/-! ## `watch` -/

theorem day_nanoseconds : Hour * 24 = 86400000000000 := by
  decide

theorem watchStep_loop (tr : List Event) :
    watchStep { pc := WatchPc.loop, trace := tr }
      = some { pc := WatchPc.loop, trace := tr ++ [Event.sleep (Hour * 24)] } := rfl

theorem watchRun_loop (n : Nat) (tr : List Event) :
    watchRun n { pc := WatchPc.loop, trace := tr }
      = some { pc := WatchPc.loop,
               trace := tr ++ List.replicate n (Event.sleep (Hour * 24)) } := by
  induction n generalizing tr with
  | zero => simp [watchRun]
  | succ n ih =>
    simp only [watchRun, watchStep_loop, ih, List.replicate_succ]
    simp

/-! ## The claims on `cmd/iscsi` -/

/-- C1: for a non-empty portals string and whatever the iscsi calls answer,
`login` returns normally (no `os.Exit`) and its `DiscoverAndLogin` calls are
exactly the comma-separated entries of the string, one call each, in order;
the entries are those of `strings.Split`, which for comma-free texts joined by
commas are those very texts. -/
theorem login_calls_every_entry (env : IscsiEnv) (portals : String) (h : portals ≠ "") :
    (login env portals).exit = none
    ∧ loginCalls (login env portals).trace = Split portals
    ∧ (∀ entries : List String, (∀ e ∈ entries, ',' ∉ e.data) →
        portals = ",".intercalate entries →
        loginCalls (login env portals).trace = entries) := by
  refine ⟨login_exit_of_ne env portals h, loginCalls_login_of_ne env portals h, ?_⟩
  intro entries hfree hjoin
  have hne : entries ≠ [] := by
    rintro rfl
    exact h (by simpa [String.intercalate] using hjoin)
  rw [loginCalls_login_of_ne env portals h, hjoin]
  exact Split_intercalate entries hne hfree

/-- Witness of C1: every call fails, and both portals are still called. -/
theorem login_calls_every_entry_witness :
    "10.0.0.1,10.0.0.2" ≠ ""
    ∧ (login (fun _ _ => some "connection refused") "10.0.0.1,10.0.0.2").exit = none
    ∧ loginCalls (login (fun _ _ => some "connection refused") "10.0.0.1,10.0.0.2").trace
        = ["10.0.0.1", "10.0.0.2"] :=
  ⟨by decide,
   (login_calls_every_entry (fun _ _ => some "connection refused") "10.0.0.1,10.0.0.2"
      (by decide)).1,
   (login_calls_every_entry (fun _ _ => some "connection refused") "10.0.0.1,10.0.0.2"
      (by decide)).2.1.trans (by decide)⟩

/-- C2: on the empty portals string `login` and `logout` end in `os.Exit(1)`
and their traces hold no `DiscoverAndLogin` and no `DiscoverAndLogout` call. -/
theorem login_logout_empty_portals (env : IscsiEnv) :
    (login env "").exit = some 1
    ∧ loginCalls (login env "").trace = []
    ∧ logoutCalls (login env "").trace = []
    ∧ (logout env "").exit = some 1
    ∧ loginCalls (logout env "").trace = []
    ∧ logoutCalls (logout env "").trace = [] := by
  refine ⟨rfl, rfl, rfl, rfl, rfl, rfl⟩

/-- C3, as stated, fails: on `"10.0.0.1,,10.0.0.2"` and on `"10.0.0.1,"`, which
hold an empty entry, `login` and `logout` do not exit and do call the iscsi
package, the empty entry included. -/
theorem malformed_entry_not_rejected :
    (login (fun _ _ => none) "10.0.0.1,,10.0.0.2").exit = none
    ∧ loginCalls (login (fun _ _ => none) "10.0.0.1,,10.0.0.2").trace
        = ["10.0.0.1", "", "10.0.0.2"]
    ∧ (logout (fun _ _ => none) "10.0.0.1,,10.0.0.2").exit = none
    ∧ logoutCalls (logout (fun _ _ => none) "10.0.0.1,,10.0.0.2").trace
        = ["10.0.0.1", "", "10.0.0.2"]
    ∧ (login (fun _ _ => none) "10.0.0.1,").exit = none
    ∧ loginCalls (login (fun _ _ => none) "10.0.0.1,").trace = ["10.0.0.1", ""]
    ∧ ¬ (∀ portals : String, portals ≠ "" → "" ∈ Split portals →
          (login (fun _ _ => none) portals).exit = some 1
          ∧ loginCalls (login (fun _ _ => none) portals).trace = []) := by
  refine ⟨by decide, by decide, by decide, by decide, by decide, by decide, ?_⟩
  intro hall
  have := (hall "10.0.0.1,,10.0.0.2" (by decide) (by decide)).1
  exact absurd this (by decide)

/-- C3, amended: the entries of a non-empty portals string are not validated;
`login` and `logout` return normally and hand every entry of the string, as
it is written (an empty entry too), to `DiscoverAndLogin` and
`DiscoverAndLogout`.  Only the empty portals string ends in `os.Exit(1)` with
no call made. -/
theorem entries_passed_unvalidated (envIn envOut : IscsiEnv) (portals : String)
    (h : portals ≠ "") :
    (login envIn portals).exit = none
    ∧ (logout envOut portals).exit = none
    ∧ loginCalls (login envIn portals).trace = Split portals
    ∧ logoutCalls (logout envOut portals).trace = Split portals
    ∧ (∀ e ∈ Split portals, e ∈ loginCalls (login envIn portals).trace
        ∧ e ∈ logoutCalls (logout envOut portals).trace)
    ∧ (login envIn "").exit = some 1
    ∧ loginCalls (login envIn "").trace = []
    ∧ (logout envOut "").exit = some 1
    ∧ logoutCalls (logout envOut "").trace = [] := by
  have h1 := loginCalls_login_of_ne envIn portals h
  have h2 := logoutCalls_logout_of_ne envOut portals h
  refine ⟨login_exit_of_ne envIn portals h, logout_exit_of_ne envOut portals h, h1, h2, ?_,
    rfl, rfl, rfl, rfl⟩
  intro e he
  rw [h1, h2]
  exact ⟨he, he⟩

/-- Witness of the amended C3, at a string with an empty entry. -/
theorem entries_passed_unvalidated_witness :
    "10.0.0.1,,10.0.0.2" ≠ ""
    ∧ "" ∈ loginCalls (login (fun _ _ => none) "10.0.0.1,,10.0.0.2").trace
    ∧ "" ∈ logoutCalls (logout (fun _ _ => some "no session") "10.0.0.1,,10.0.0.2").trace :=
  ⟨by decide,
   (entries_passed_unvalidated (fun _ _ => none) (fun _ _ => some "no session")
      "10.0.0.1,,10.0.0.2" (by decide)).2.2.2.2.1 "" (by decide)⟩

/-- C4, as stated, fails: on `"10.0.0.1,10.0.0.2,10.0.0.1"` the calls of
`login` are the three entries, the repeated one twice, and not the two
distinct entries. -/
theorem login_calls_not_deduplicated :
    loginCalls (login (fun _ _ => none) "10.0.0.1,10.0.0.2,10.0.0.1").trace
        = ["10.0.0.1", "10.0.0.2", "10.0.0.1"]
    ∧ dedupKeepFirst (Split "10.0.0.1,10.0.0.2,10.0.0.1") = ["10.0.0.1", "10.0.0.2"]
    ∧ loginCalls (login (fun _ _ => none) "10.0.0.1,10.0.0.2,10.0.0.1").trace
        ≠ dedupKeepFirst (Split "10.0.0.1,10.0.0.2,10.0.0.1")
    ∧ (loginCalls (login (fun _ _ => none) "10.0.0.1,10.0.0.2,10.0.0.1").trace).length
        ≠ (dedupKeepFirst (Split "10.0.0.1,10.0.0.2,10.0.0.1")).length := by
  refine ⟨by decide, by decide, by decide, by decide⟩

/-- C4, amended: for a non-empty portals string the portals `login` acts on
are all the entries of the string in order, repeated entries kept; their
number is the number of commas plus one; and they are the duplicate-free
sequence of the entries (or as many as it) exactly when no entry is
repeated. -/
theorem login_calls_keep_duplicates (env : IscsiEnv) (portals : String) (h : portals ≠ "") :
    loginCalls (login env portals).trace = Split portals
    ∧ (loginCalls (login env portals).trace).length = portals.data.count ',' + 1
    ∧ (loginCalls (login env portals).trace = dedupKeepFirst (Split portals)
        ↔ (Split portals).Nodup)
    ∧ ((loginCalls (login env portals).trace).length = (dedupKeepFirst (Split portals)).length
        ↔ (Split portals).Nodup) := by
  have h1 := loginCalls_login_of_ne env portals h
  rw [h1]
  refine ⟨rfl, length_Split portals, ?_, length_dedupKeepFirst_eq_iff _⟩
  rw [eq_comm]
  exact dedupKeepFirst_eq_self_iff _

/-- Witness of the amended C4, at a string with a repeated entry. -/
theorem login_calls_keep_duplicates_witness :
    "10.0.0.1,10.0.0.2,10.0.0.1" ≠ ""
    ∧ (loginCalls (login (fun _ _ => none) "10.0.0.1,10.0.0.2,10.0.0.1").trace).length
        = 2 + 1 :=
  ⟨by decide,
   (login_calls_keep_duplicates (fun _ _ => none) "10.0.0.1,10.0.0.2,10.0.0.1"
      (by decide)).2.1.trans (by decide)⟩

/-- C6: `logout` mirrors `login`: on every portals string, and whatever the
iscsi calls of either answer, `logout` ends in `os.Exit(1)` exactly when
`login` does, both end the same way, and the portals `logout` passes to
`DiscoverAndLogout` are the portals `login` passes to `DiscoverAndLogin`, in
the same order. -/
theorem logout_mirrors_login (envIn envOut : IscsiEnv) (portals : String) :
    ((logout envOut portals).exit = some 1 ↔ (login envIn portals).exit = some 1)
    ∧ (logout envOut portals).exit = (login envIn portals).exit
    ∧ logoutCalls (logout envOut portals).trace = loginCalls (login envIn portals).trace := by
  by_cases h : portals = ""
  · subst h
    exact ⟨Iff.rfl, rfl, rfl⟩
  · rw [login_exit_of_ne envIn portals h, logout_exit_of_ne envOut portals h,
      loginCalls_login_of_ne envIn portals h, logoutCalls_logout_of_ne envOut portals h]
    exact ⟨Iff.rfl, rfl, rfl⟩

/-- C7: every step of `watch` appends one `time.Sleep` of 24 hours
(86400000000000 ns) and leaves control at the head of the loop; after any
number of steps from its entry `watch` is at the head of the loop, has not
returned, its trace is that many 24-hour sleeps with no call of the iscsi
package among them, and a further step exists.  The duration
`time.Hour * 24` fits the 64-bit `time.Duration`. -/
theorem watch_only_sleeps :
    (Hour * 24 = 86400000000000 ∧ Hour * 24 < 2 ^ 63)
    ∧ (∀ s t : WatchState, WatchStep s t →
        t.trace = s.trace ++ [Event.sleep 86400000000000] ∧ t.pc = WatchPc.loop)
    ∧ (∀ n : Nat, ∃ t : WatchState, watchRun n watchInit = some t
        ∧ t.pc = WatchPc.loop
        ∧ t.pc ≠ WatchPc.returned
        ∧ t.trace = List.replicate n (Event.sleep 86400000000000)
        ∧ (∀ e ∈ t.trace, e.isIscsi = false)
        ∧ ∃ u : WatchState, WatchStep t u) := by
  refine ⟨⟨day_nanoseconds, by decide⟩, ?_, ?_⟩
  · intro s t hst
    obtain ⟨pc, tr⟩ := s
    cases pc with
    | loop =>
      have ht : t = { pc := WatchPc.loop, trace := tr ++ [Event.sleep (Hour * 24)] } := by
        simpa [WatchStep, watchStep] using hst.symm
      subst ht
      exact ⟨by rw [day_nanoseconds], rfl⟩
    | returned => simp [WatchStep, watchStep] at hst
  · intro n
    refine ⟨{ pc := WatchPc.loop, trace := List.replicate n (Event.sleep (Hour * 24)) },
      ?_, rfl, by simp, by rw [day_nanoseconds], ?_, ?_⟩
    · simpa [watchInit] using watchRun_loop n []
    · intro e he
      rw [List.eq_of_mem_replicate he]
      rfl
    · exact ⟨_, watchStep_loop _⟩

end Cmd

namespace Util

/-! ## `TestConnectivity` -/

theorem dialsOf_append (xs ys : List String) (port : String) :
    dialsOf (xs ++ ys) port = dialsOf xs port ++ dialsOf ys port := by
  simp [dialsOf]

/-- The loop, entered with the trace `tr`, when the candidate at index `i` is
the first whose dial succeeds. -/
theorem TestConnectivityLoop_success (dial : DialEnv) (port : String) (addrs : List String)
    (tr : List Event) (i : Nat) (a : String) (ha : addrs[i]? = some a)
    (hfail : ∀ j b, j < i → addrs[j]? = some b →
      dial (tr ++ dialsOf (addrs.take j) port) (dialAddress b port) = false)
    (hok : dial (tr ++ dialsOf (addrs.take i) port) (dialAddress a port) = true) :
    TestConnectivityLoop dial port addrs tr
      = { trace := tr ++ dialsOf (addrs.take (i + 1)) port ++ [Event.close (dialAddress a port)],
          result := a } := by
  induction addrs generalizing tr i with
  | nil => simp at ha
  | cons x rest ih =>
    cases i with
    | zero =>
      simp only [List.getElem?_cons_zero, Option.some.injEq] at ha
      subst ha
      have h0 : dial tr (dialAddress x port) = true := by simpa [dialsOf] using hok
      simp [TestConnectivityLoop, h0, dialsOf]
    | succ k =>
      have h0 : dial tr (dialAddress x port) = false := by
        simpa [dialsOf] using hfail 0 x (Nat.succ_pos k) (by simp)
      have hrest := ih (tr ++ [Event.dial (dialAddress x port)]) k
        (by simpa using ha)
        (by
          intro j b hj hb
          have := hfail (j + 1) b (Nat.succ_lt_succ hj) (by simpa using hb)
          simpa [dialsOf, List.append_assoc] using this)
        (by simpa [dialsOf, List.append_assoc] using hok)
      simp only [TestConnectivityLoop, h0, Bool.false_eq_true, if_false]
      rw [hrest]
      simp [dialsOf, List.append_assoc]

/-- The loop, entered with the trace `tr`, when every dial fails. -/
theorem TestConnectivityLoop_failure (dial : DialEnv) (port : String) (addrs : List String)
    (tr : List Event)
    (hfail : ∀ j b, addrs[j]? = some b →
      dial (tr ++ dialsOf (addrs.take j) port) (dialAddress b port) = false) :
    TestConnectivityLoop dial port addrs tr
      = { trace := tr ++ dialsOf addrs port, result := "" } := by
  induction addrs generalizing tr with
  | nil => simp [TestConnectivityLoop, dialsOf]
  | cons x rest ih =>
    have h0 : dial tr (dialAddress x port) = false := by
      simpa [dialsOf] using hfail 0 x (by simp)
    have hrest := ih (tr ++ [Event.dial (dialAddress x port)])
      (by
        intro j b hb
        have := hfail (j + 1) b (by simpa using hb)
        simpa [dialsOf, List.append_assoc] using this)
    simp only [TestConnectivityLoop, h0, Bool.false_eq_true, if_false]
    rw [hrest]
    simp [dialsOf, List.append_assoc]

/-- C5: `TestConnectivity` dials the candidates in list order, at the
candidate itself when `port` is empty and at `candidate:port` otherwise.  When
the candidate at index `i` is the first whose dial succeeds, the result is
that candidate (without the port) and the trace is the dials of the first
`i + 1` candidates followed by the close of the connection: nothing is dialled
after it.  When every dial fails (so also for no candidates) the result is
`""` and the trace is the dials of all candidates. -/
theorem TestConnectivity_first_success (dial : DialEnv) (addrs : List String) (port : String) :
    (∀ i a, addrs[i]? = some a →
        (∀ j b, j < i → addrs[j]? = some b →
          dial (dialsOf (addrs.take j) port) (dialAddress b port) = false) →
        dial (dialsOf (addrs.take i) port) (dialAddress a port) = true →
        (TestConnectivity dial addrs port).result = a
        ∧ (TestConnectivity dial addrs port).trace
            = dialsOf (addrs.take (i + 1)) port ++ [Event.close (dialAddress a port)])
    ∧ ((∀ j b, addrs[j]? = some b →
          dial (dialsOf (addrs.take j) port) (dialAddress b port) = false) →
        (TestConnectivity dial addrs port).result = ""
        ∧ (TestConnectivity dial addrs port).trace = dialsOf addrs port)
    ∧ ((∃ i a, addrs[i]? = some a
          ∧ (∀ j b, j < i → addrs[j]? = some b →
              dial (dialsOf (addrs.take j) port) (dialAddress b port) = false)
          ∧ dial (dialsOf (addrs.take i) port) (dialAddress a port) = true)
        ∨ (∀ j b, addrs[j]? = some b →
            dial (dialsOf (addrs.take j) port) (dialAddress b port) = false))
    ∧ (TestConnectivity dial [] port).result = ""
    ∧ (∀ a, dialAddress a "" = a)
    ∧ (port ≠ "" → ∀ a, dialAddress a port = a ++ ":" ++ port) := by
  refine ⟨?_, ?_, ?_, rfl, fun a => rfl, fun hp a => by simp [dialAddress, hp]⟩
  · intro i a ha hfail hok
    have h := TestConnectivityLoop_success dial port addrs [] i a ha
      (by simpa using hfail) (by simpa using hok)
    unfold TestConnectivity
    rw [h]
    simp
  · intro hfail
    have h := TestConnectivityLoop_failure dial port addrs [] (by simpa using hfail)
    unfold TestConnectivity
    rw [h]
    simp
  · classical
    by_cases hex : ∃ i, ∃ a, addrs[i]? = some a
        ∧ dial (dialsOf (addrs.take i) port) (dialAddress a port) = true
    · left
      obtain ⟨a, ha, hok⟩ := Nat.find_spec hex
      refine ⟨Nat.find hex, a, ha, ?_, hok⟩
      intro j b hj hb
      have hmin := Nat.find_min hex hj
      by_contra hne
      exact hmin ⟨b, hb, by simpa using hne⟩
    · right
      intro j b hb
      by_contra hne
      exact hex ⟨j, b, hb, by simpa using hne⟩

/-- C5 at a concrete input: of three candidates the second is the first to
accept the dial; it is returned bare and the third is never dialled. -/
theorem TestConnectivity_first_success_witness :
    (TestConnectivity (fun _ address => decide (address ≠ "10.0.0.1:50051"))
        ["10.0.0.1", "10.0.0.2", "10.0.0.3"] "50051").result = "10.0.0.2"
    ∧ (TestConnectivity (fun _ address => decide (address ≠ "10.0.0.1:50051"))
        ["10.0.0.1", "10.0.0.2", "10.0.0.3"] "50051").trace
        = [Event.dial "10.0.0.1:50051", Event.dial "10.0.0.2:50051",
           Event.close "10.0.0.2:50051"] := by
  have h := (TestConnectivity_first_success
    (fun _ address => decide (address ≠ "10.0.0.1:50051"))
    ["10.0.0.1", "10.0.0.2", "10.0.0.3"] "50051").1 1 "10.0.0.2" (by decide)
    (by
      intro j b hj hb
      have hj0 : j = 0 := by omega
      subst hj0
      have hb0 : b = "10.0.0.1" := by simpa using hb.symm
      subst hb0
      decide)
    (by decide)
  exact ⟨h.1, h.2.trans (by decide)⟩

end Util

namespace Ibmblockcsi

/-! ## `labels.Set` -/

theorem Set.get_put (ls : Set) (k v k' : String) :
    Set.get (Set.put ls k v) k' = if k = k' then some v else Set.get ls k' := by
  induction ls with
  | nil => simp [Set.put, Set.get]
  | cons e rest ih =>
    obtain ⟨k0, v0⟩ := e
    by_cases h0 : k0 = k
    · subst h0
      by_cases h1 : k0 = k' <;> simp [Set.put, Set.get, h1]
    · by_cases h1 : k0 = k'
      · subst h1
        have h2 : ¬ k = k0 := fun h => h0 h.symm
        simp [Set.put, Set.get, h0, h2]
      · simp [Set.put, Set.get, h0, h1, ih]

theorem Set.has_iff_mem_keys (ls : Set) (k : String) :
    Set.Has ls k = true ↔ k ∈ Set.keys ls := by
  induction ls with
  | nil => simp [Set.Has, Set.get, Set.keys]
  | cons e rest ih =>
    obtain ⟨k0, v0⟩ := e
    by_cases h0 : k0 = k
    · simp [Set.Has, Set.get, Set.keys, h0]
    · have h1 : ¬ k = k0 := fun h => h0 h.symm
      have ih' : (Set.get rest k).isSome = true ↔ k ∈ List.map Prod.fst rest := by
        simpa [Set.Has, Set.keys] using ih
      simp [Set.Has, Set.get, Set.keys, h0, h1, ih']

theorem Set.put_of_not_mem (ls : Set) (k v : String) (h : k ∉ Set.keys ls) :
    Set.put ls k v = ls ++ [(k, v)] := by
  induction ls with
  | nil => simp [Set.put]
  | cons e rest ih =>
    obtain ⟨k0, v0⟩ := e
    have h0 : ¬ k0 = k := fun h0 => h (by simp [Set.keys, h0])
    have hr : k ∉ Set.keys rest := fun hr => h (by
      simp only [Set.keys, List.map_cons, List.mem_cons]
      exact Or.inr hr)
    simp [Set.put, h0, ih hr]

/-- Copying a set without repeated keys, entry by entry, onto a set that has
none of its keys appends it. -/
theorem foldl_put_of_nodup (l m : Set) (h : (Set.keys (m ++ l)).Nodup) :
    l.foldl (fun m kv => Set.put m kv.1 kv.2) m = m ++ l := by
  induction l generalizing m with
  | nil => simp
  | cons e rest ih =>
    obtain ⟨k, v⟩ := e
    have hk : k ∉ Set.keys m := by
      intro hk
      simp only [Set.keys, List.map_append, List.map_cons] at h hk
      have := (List.nodup_append.1 h).2.2
      exact this hk (by simp) 
    simp only [List.foldl_cons]
    rw [Set.put_of_not_mem m k v hk, ih (m ++ [(k, v)]) (by simpa [List.append_assoc] using h)]
    simp

/-! ## `GetLabels` -/

theorem get_foldl_addOwn (cl m : Set) (k : String) :
    Set.get (cl.foldl addOwn m) k
      = match Set.get m k with
        | some v => some v
        | none => Set.get cl k := by
  induction cl generalizing m with
  | nil => cases h : Set.get m k <;> simp [Set.get, h]
  | cons e rest ih =>
    obtain ⟨k0, v0⟩ := e
    simp only [List.foldl_cons]
    rw [ih]
    by_cases hhas : Set.Has m k0 = true
    · have hm : addOwn m (k0, v0) = m := by simp [addOwn, hhas]
      rw [hm]
      cases hg : Set.get m k with
      | some v => rfl
      | none =>
        have hne : ¬ k0 = k := by
          intro hk
          subst hk
          simp [Set.Has, hg] at hhas
        simp [Set.get, hne]
    · have hm : addOwn m (k0, v0) = Set.put m k0 v0 := by simp [addOwn, hhas]
      rw [hm, Set.get_put]
      by_cases hk : k0 = k
      · subst hk
        have hg : Set.get m k0 = none := by
          simpa [Set.Has] using hhas
        simp [hg, Set.get]
      · cases hg : Set.get m k <;> simp [hk, Set.get]

theorem keys_foldl_addOwn_nodup (cl m : Set) (h : (Set.keys m).Nodup) :
    (Set.keys (cl.foldl addOwn m)).Nodup := by
  induction cl generalizing m with
  | nil => simpa using h
  | cons e rest ih =>
    simp only [List.foldl_cons]
    apply ih
    by_cases hhas : Set.Has m e.1 = true
    · simpa [addOwn, hhas] using h
    · have hk : e.1 ∉ Set.keys m := fun hk => hhas ((Set.has_iff_mem_keys m e.1).2 hk)
      have hm : addOwn m e = m ++ [(e.1, e.2)] := by
        simp [addOwn, hhas, Set.put_of_not_mem m e.1 e.2 hk]
      rw [hm]
      simp only [Set.keys, List.map_append, List.map_cons, List.map_nil]
      rw [List.nodup_append]
      refine ⟨h, by simp, ?_⟩
      intro a ha hb
      simp only [List.mem_singleton] at hb
      subst hb
      exact hk ha

theorem GetLabels_eq (cfg : Config) (c : IBMBlockCSI) :
    GetLabels cfg c = (ownLabels c).foldl addOwn (operatorLabels cfg c) := by
  unfold GetLabels ownLabels
  cases c.Labels <;> rfl

theorem keys_operatorLabels (cfg : Config) (c : IBMBlockCSI) :
    Set.keys (operatorLabels cfg c) = operatorKeys := rfl

theorem keys_GetLabels_nodup (cfg : Config) (c : IBMBlockCSI) :
    (Set.keys (GetLabels cfg c)).Nodup := by
  rw [GetLabels_eq]
  apply keys_foldl_addOwn_nodup
  rw [keys_operatorLabels]
  decide

theorem get_GetLabels (cfg : Config) (c : IBMBlockCSI) (k : String) :
    Set.get (GetLabels cfg c) k
      = match Set.get (operatorLabels cfg c) k with
        | some v => some v
        | none => Set.get (ownLabels c) k := by
  rw [GetLabels_eq, get_foldl_addOwn]

theorem get_operatorLabels_of_not_mem (cfg : Config) (c : IBMBlockCSI) (k : String)
    (h : k ∉ operatorKeys) : Set.get (operatorLabels cfg c) k = none := by
  have hk : ¬ (Set.Has (operatorLabels cfg c) k = true) := fun hh =>
    h ((keys_operatorLabels cfg c) ▸ (Set.has_iff_mem_keys _ k).1 hh)
  simpa [Set.Has] using hk

/-- C8: the keys of `GetLabels` are the six operator keys and the keys of the
resource's own labels, no others and each once; the six operator keys carry
the operator's values whatever the resource's labels say; every other key
carries the resource's value. -/
theorem GetLabels_keys_and_values (cfg : Config) (c : IBMBlockCSI) :
    (∀ k, Set.Has (GetLabels cfg c) k = true
        ↔ (k ∈ operatorKeys ∨ Set.Has (ownLabels c) k = true))
    ∧ Set.get (GetLabels cfg c) "app.kubernetes.io/name" = some cfg.ProductName
    ∧ Set.get (GetLabels cfg c) "app.kubernetes.io/instance" = some c.Name
    ∧ Set.get (GetLabels cfg c) "app.kubernetes.io/version" = some cfg.Version
    ∧ Set.get (GetLabels cfg c) "app.kubernetes.io/managed-by" = some cfg.Name
    ∧ Set.get (GetLabels cfg c) "csi" = some "ibm"
    ∧ Set.get (GetLabels cfg c) "product" = some cfg.ProductName
    ∧ (∀ k, k ∉ operatorKeys → Set.get (GetLabels cfg c) k = Set.get (ownLabels c) k)
    ∧ (Set.keys (GetLabels cfg c)).Nodup := by
  refine ⟨?_, ?_, ?_, ?_, ?_, ?_, ?_, ?_, keys_GetLabels_nodup cfg c⟩
  · intro k
    by_cases hk : k ∈ operatorKeys
    · have hh : Set.Has (operatorLabels cfg c) k = true :=
        (Set.has_iff_mem_keys _ k).2 (by rw [keys_operatorLabels]; exact hk)
      have : Set.Has (GetLabels cfg c) k = true := by
        unfold Set.Has at hh ⊢
        rw [get_GetLabels]
        cases hg : Set.get (operatorLabels cfg c) k with
        | none => simp [hg] at hh
        | some v => rfl
      simp [this, hk]
    · unfold Set.Has
      rw [get_GetLabels, get_operatorLabels_of_not_mem cfg c k hk]
      simp [hk]
  · rw [get_GetLabels]; rfl
  · rw [get_GetLabels]; rfl
  · rw [get_GetLabels]; rfl
  · rw [get_GetLabels]; rfl
  · rw [get_GetLabels]; rfl
  · rw [get_GetLabels]; rfl
  · intro k hk
    rw [get_GetLabels, get_operatorLabels_of_not_mem cfg c k hk]

/-! ## Selector and pod labels -/

theorem Merge_GetLabels_single (cfg : Config) (c : IBMBlockCSI) (k v : String) :
    Merge (GetLabels cfg c) [(k, v)] = Set.put (GetLabels cfg c) k v := by
  unfold Merge
  rw [foldl_put_of_nodup (GetLabels cfg c) [] (by simpa using keys_GetLabels_nodup cfg c)]
  simp

theorem get_single (k v k' : String) :
    Set.get [(k, v)] k' = if k = k' then some v else none := by
  simp [Set.get]

theorem matches_put (ls : Set) (k v : String) : Matches [(k, v)] (Set.put ls k v) := by
  intro k' v' h
  rw [get_single] at h
  rw [Set.get_put]
  by_cases hk : k = k'
  · simpa [hk] using h
  · simp [hk] at h

/-- C9: the controller pod labels contain the controller selector labels and
the node pod labels the node selector labels, entry for entry, also when the
resource's own labels set `app.kubernetes.io/component`; on every other key
the pod labels are those of `GetLabels`. -/
theorem pod_labels_contain_selector (cfg : Config) (c : IBMBlockCSI) :
    Matches (GetCSIControllerSelectorLabels cfg) (GetCSIControllerPodLabels cfg c)
    ∧ Matches (GetCSINodeSelectorLabels cfg) (GetCSINodePodLabels cfg c)
    ∧ Set.get (GetCSIControllerPodLabels cfg c) "app.kubernetes.io/component"
        = some cfg.CSIController
    ∧ Set.get (GetCSINodePodLabels cfg c) "app.kubernetes.io/component" = some cfg.CSINode
    ∧ (∀ k, k ≠ "app.kubernetes.io/component" →
        Set.get (GetCSIControllerPodLabels cfg c) k = Set.get (GetLabels cfg c) k
        ∧ Set.get (GetCSINodePodLabels cfg c) k = Set.get (GetLabels cfg c) k) := by
  have hc : GetCSIControllerPodLabels cfg c
      = Set.put (GetLabels cfg c) "app.kubernetes.io/component" cfg.CSIController :=
    Merge_GetLabels_single cfg c _ _
  have hn : GetCSINodePodLabels cfg c
      = Set.put (GetLabels cfg c) "app.kubernetes.io/component" cfg.CSINode :=
    Merge_GetLabels_single cfg c _ _
  rw [hc, hn]
  refine ⟨matches_put _ _ _, matches_put _ _ _, ?_, ?_, ?_⟩
  · simp [Set.get_put]
  · simp [Set.get_put]
  · intro k hk
    have hk' : ¬ "app.kubernetes.io/component" = k := fun h => hk h.symm
    simp [Set.get_put, hk']

/-- C9 at a resource whose own labels set `app.kubernetes.io/component` to
another value: the pod labels carry the selector's value. -/
theorem pod_labels_contain_selector_witness :
    Set.get (GetCSIControllerPodLabels
        { ProductName := "ibm-block-csi-driver", Name := "ibm-block-csi-operator",
          Version := "1.0.0", CSIController := "csi-controller", CSINode := "csi-node" }
        { Name := "ibm-block-csi",
          Labels := some [("app.kubernetes.io/component", "other")],
          Sidecars := [] })
      "app.kubernetes.io/component" = some "csi-controller" :=
  (pod_labels_contain_selector
    { ProductName := "ibm-block-csi-driver", Name := "ibm-block-csi-operator",
      Version := "1.0.0", CSIController := "csi-controller", CSINode := "csi-node" }
    { Name := "ibm-block-csi",
      Labels := some [("app.kubernetes.io/component", "other")],
      Sidecars := [] }).2.2.1

/-! ## Sidecars -/

theorem findSidecar_first (name : String) (pre post : List CSISidecar) (s : CSISidecar)
    (hpre : ∀ x ∈ pre, x.Name ≠ name) (hs : s.Name = name) :
    findSidecar name (pre ++ s :: post) = some s := by
  induction pre with
  | nil => simp [findSidecar, hs]
  | cons x pre ih =>
    have hx : x.Name ≠ name := hpre x (by simp)
    have hrest : ∀ y ∈ pre, y.Name ≠ name := fun y hy => hpre y (by simp [hy])
    simp [findSidecar, hx, ih hrest]

theorem findSidecar_eq_none_iff (name : String) (l : List CSISidecar) :
    findSidecar name l = none ↔ ∀ s ∈ l, s.Name ≠ name := by
  induction l with
  | nil => simp [findSidecar]
  | cons x rest ih =>
    by_cases hx : x.Name = name
    · simp [findSidecar, hx]
    · simp [findSidecar, hx, ih]

theorem image_ne_empty (repository tag : String) : repository ++ ":" ++ tag ≠ "" := by
  intro h
  have hd := congrArg String.data h
  simp [String.data_append] at hd

/-- C10: `GetSidecarImageByName` returns `<repository>:<tag>` of the first
sidecar of the list whose `Name` is the given name, and returns the empty
string exactly when no sidecar of the list has that name; a match with an
empty tag yields `<repository>:`, which is not empty. -/
theorem GetSidecarImageByName_first_match (c : IBMBlockCSI) (name : String) :
    (∀ pre s post, c.Sidecars = pre ++ s :: post → (∀ x ∈ pre, x.Name ≠ name) →
        s.Name = name →
        GetSidecarImageByName c name = s.Repository ++ ":" ++ s.Tag
        ∧ GetSidecarImageByName c name ≠ ""
        ∧ (s.Tag = "" → GetSidecarImageByName c name = s.Repository ++ ":"))
    ∧ (GetSidecarImageByName c name = "" ↔ ∀ s ∈ c.Sidecars, s.Name ≠ name) := by
  constructor
  · intro pre s post hsplit hpre hs
    have hfind : GetSidecarByName c name = some s := by
      unfold GetSidecarByName
      rw [hsplit]
      exact findSidecar_first name pre post s hpre hs
    have himg : GetSidecarImageByName c name = s.Repository ++ ":" ++ s.Tag := by
      simp [GetSidecarImageByName, hfind]
    refine ⟨himg, by rw [himg]; exact image_ne_empty _ _, ?_⟩
    intro ht
    rw [himg, ht]
    simp
  · rw [← findSidecar_eq_none_iff]
    unfold GetSidecarImageByName GetSidecarByName
    cases hf : findSidecar name c.Sidecars with
    | none => simp
    | some s =>
      simp only [reduceCtorEq, iff_false]
      exact image_ne_empty _ _

/-- C10 at a concrete resource: two sidecars share the name, the first has an
empty tag; its image is returned. -/
theorem GetSidecarImageByName_first_match_witness :
    GetSidecarImageByName
      { Name := "ibm-block-csi", Labels := none,
        Sidecars := [
          { Name := "csi-attacher", Repository := "quay.io/a", Tag := "v1", ImagePullPolicy := "" },
          { Name := "csi-provisioner", Repository := "quay.io/p", Tag := "", ImagePullPolicy := "" },
          { Name := "csi-provisioner", Repository := "quay.io/q", Tag := "v2", ImagePullPolicy := "" }] }
      "csi-provisioner" = "quay.io/p:" :=
  ((GetSidecarImageByName_first_match
      { Name := "ibm-block-csi", Labels := none,
        Sidecars := [
          { Name := "csi-attacher", Repository := "quay.io/a", Tag := "v1", ImagePullPolicy := "" },
          { Name := "csi-provisioner", Repository := "quay.io/p", Tag := "", ImagePullPolicy := "" },
          { Name := "csi-provisioner", Repository := "quay.io/q", Tag := "v2", ImagePullPolicy := "" }] }
      "csi-provisioner").1
    [{ Name := "csi-attacher", Repository := "quay.io/a", Tag := "v1", ImagePullPolicy := "" }]
    { Name := "csi-provisioner", Repository := "quay.io/p", Tag := "", ImagePullPolicy := "" }
    [{ Name := "csi-provisioner", Repository := "quay.io/q", Tag := "v2", ImagePullPolicy := "" }]
    rfl (by decide) rfl).1.trans (by decide)

end Ibmblockcsi
